import Mathlib

/-!
Verification of the versioned entry index ("Cache") of the tman/trash utility.

The definitions below are a shallow embedding of the Rust sources:
  * `src/cache.rs`   — `Cache`, `Entry`, `Key`, `VersionPredicate` and the
    push/pop/entries/end operations (the binary built by `main.rs`);
  * `src/lib/cache.rs` — the library rewrite of the same component (its
    `VersionPredicate` is named `All`/`Latest`/`Specific` and its
    `Entry::pop` differs in the `Specific` branch);
  * `src/trash.rs` / `src/lib/mod.rs` — the orchestration layer (`restore`,
    `empty`), of which only the index-facing logic is modelled;
  * `src/error.rs` — the `Error` enum and its rendering.

Effectful ingredients are made explicit: the generated version identifier
(`Utc::now()`) and the generated container id (`Uuid::new_v4()`) are
parameters of `Cache.push`; the backing file is a value passed to the
load/commit models; a Rust panic (`unwrap` on `None`, out-of-bounds
`Vec::remove`) is `Option.none`.
-/

/-- `Key` from `src/cache.rs` (identical in `src/lib/cache.rs`): structural
equality on both fields, as the derived `PartialEq` gives. -/
structure Key where
  name : String
  origin : String
deriving DecidableEq, Repr

/-- `Entry` from `src/cache.rs`: a key, a container id (`Uuid`, modelled as
a string, which is how it serializes), and the ordered version history. -/
structure Entry where
  key : Key
  uuid : String
  history : List String
deriving DecidableEq, Repr

/-- `Error` from `src/error.rs` (identical in `src/lib/error.rs`).
`InvalidRegex` carries a `regex::Error` in the source; its payload is
irrelevant to the index, so it is dropped here. -/
inductive Error where
  | InvalidArguments
  | InvalidJSON (line column : Nat)
  | InvalidRegex
  | MissingTarget (target : String)
  | MissingTargetPredicate
  | Unknown
deriving DecidableEq, Repr

/-- `VersionPredicate` from `src/cache.rs` (variants `Any`, `Newest`,
`Specific`). -/
inductive VersionPredicate where
  | Any
  | Newest
  | Specific (target : String)
deriving DecidableEq, Repr

/-- `VersionPredicate` from `src/lib/cache.rs` (variants `All`, `Latest`,
`Specific`). -/
inductive LibVersionPredicate where
  | All
  | Latest
  | Specific (target : String)
deriving DecidableEq, Repr

/-- The index-collecting loops of `Cache::pop` and `Entry::pop`: walk the
list with `enumerate`-style counting from `n`, recording the positions of
the elements satisfying `q`. -/
def idxWhereFrom (q : α → Bool) : List α → Nat → List Nat
  | [], _ => []
  | x :: xs, n => (if q x then [n] else []) ++ idxWhereFrom q xs (n + 1)

/-- `Vec::remove(i)`: return the element at position `i` and the vector
without it; `none` models the panic on an out-of-bounds index. -/
def removeAt : List α → Nat → Option (α × List α)
  | [], _ => none
  | x :: xs, 0 => some (x, xs)
  | x :: xs, n + 1 => (removeAt xs n).map (fun p => (p.1, x :: p.2))

/-- The removal loops of `Cache::pop` and `Entry::pop`: for each stored
index `i`, `remove(i - shift_factor)`, incrementing the shift factor after
each removal; the removed elements are collected in order. -/
def popAtIndices : List α → List Nat → Nat → Option (List α × List α)
  | h, [], _ => some ([], h)
  | h, i :: is, shift =>
    match removeAt h (i - shift) with
    | none => none
    | some (v, h') =>
      match popAtIndices h' is (shift + 1) with
      | none => none
      | some (vs, h'') => some (v :: vs, h'')

/-- `Entry::pop` from `src/cache.rs`, as a function of the history list:
returns the popped versions and the remaining history.
`Any` clones the whole history and truncates it; `Newest` is
`history.pop().unwrap()` (panic — `none` — on an empty history);
`Specific` collects the indices of all textually equal versions and removes
them with the shift-factor loop. -/
def Entry.pop : VersionPredicate → List String → Option (List String × List String)
  | .Any, h => some (h, [])
  | .Newest, h =>
    match h.getLast? with
    | none => none
    | some v => some ([v], h.dropLast)
  | .Specific t, h => popAtIndices h (idxWhereFrom (fun v => v == t) h 0) 0

/-- The `Specific` branch of `Entry::pop` from `src/lib/cache.rs`: remove
the first textually equal version and `break`. -/
def libPopSpecific (t : String) : List String → List String × List String
  | [] => ([], [])
  | v :: h =>
    if v == t then ([v], h)
    else
      let r := libPopSpecific t h
      (r.1, v :: r.2)

/-- `Entry::pop` from `src/lib/cache.rs`: `All` and `Latest` behave as in
`src/cache.rs`; `Specific` removes only the first occurrence. -/
def libEntryPop : LibVersionPredicate → List String → Option (List String × List String)
  | .All, h => some (h, [])
  | .Latest, h =>
    match h.getLast? with
    | none => none
    | some v => some ([v], h.dropLast)
  | .Specific t, h => some (libPopSpecific t h)

/-- The main loop of `Cache::pop` (`src/cache.rs` lines 84-97), walking the
entries with `enumerate` from `idx`: for each entry whose key satisfies
`kp`, pop versions via `Entry::pop`, snapshot the entry with the popped
versions as history, record whether the mutated history is now empty, and
remember the index of each emptied entry.  Returns
(popped snapshots, emptied indices, occurred flag, mutated entries). -/
def popScan (kp : Key → Bool) (vp : VersionPredicate) :
    List Entry → Nat → Option (List (Bool × Entry) × List Nat × Bool × List Entry)
  | [], _ => some ([], [], false, [])
  | e :: es, idx =>
    if kp e.key then
      match Entry.pop vp e.history with
      | none => none
      | some (poppedVs, remaining) =>
        let emptied := remaining.length == 0
        match popScan kp vp es (idx + 1) with
        | none => none
        | some (popped, flagged, _, es') =>
          some ((emptied, { e with history := poppedVs }) :: popped,
                (if emptied then [idx] else []) ++ flagged,
                true,
                { e with history := remaining } :: es')
    else
      match popScan kp vp es (idx + 1) with
      | none => none
      | some (popped, flagged, occurred, es') =>
        some (popped, flagged, occurred, e :: es')

/-- `Cache::pop` from `src/cache.rs`: run the scan, then remove the emptied
entries by stored index minus shift factor, then return the popped
snapshots if any key matched and `MissingTargetPredicate` otherwise.  The
second component is the resulting entry list (the in-memory state after the
call); `none` models a panic. -/
def Cache.pop (kp : Key → Bool) (vp : VersionPredicate) (entries : List Entry) :
    Option (Except Error (List (Bool × Entry)) × List Entry) :=
  match popScan kp vp entries 0 with
  | none => none
  | some (popped, flagged, occurred, es') =>
    match popAtIndices es' flagged 0 with
    | none => none
    | some (_, es'') =>
      if occurred then some (.ok popped, es'') else some (.error .MissingTargetPredicate, es'')

/-- The lookup loop of `Cache::push`: find the first entry with the given
key, append the version to its history and return its uuid; `none` when no
entry has the key. -/
def pushLoop (key : Key) (version : String) : List Entry → Option (List Entry × String)
  | [] => none
  | e :: es =>
    if e.key == key then some ({ e with history := e.history ++ [version] } :: es, e.uuid)
    else (pushLoop key version es).map (fun p => (e :: p.1, p.2))

/-- `Cache::push` from `src/cache.rs` (identical in `src/lib/cache.rs`).
The generated version identifier (`Utc::now()`) and the generated container
id (`Uuid::new_v4()`) are passed in; the fresh uuid is used only when the
key was never seen, in which case a new entry with a single-element history
is appended.  Returns the new entry list and the `(uuid, version)` pair the
source returns. -/
def Cache.push (name origin freshUuid version : String) (entries : List Entry) :
    List Entry × String × String :=
  let key : Key := ⟨name, origin⟩
  match pushLoop key version entries with
  | some (es', u) => (es', u, version)
  | none => (entries ++ [⟨key, freshUuid, [version]⟩], freshUuid, version)

/-- A sequence of `push` calls with one fixed `(name, origin)` pair; each
call supplies its generated `(uuid, version)` pair. -/
def pushMany (name origin : String) (calls : List (String × String)) (entries : List Entry) :
    List Entry :=
  calls.foldl (fun es c => (Cache.push name origin c.1 c.2 es).1) entries

/-- The index invariant: every entry present in the index has a non-empty
version history. -/
def CacheInv (entries : List Entry) : Prop :=
  ∀ e ∈ entries, e.history ≠ []

/-- The effect of `Cache::pop` with the match-all version predicate on a
single entry: matched entries keep their key and uuid but lose their whole
history. Used only to state lemmas about `popScan`. -/
def drainMatched (kp : Key → Bool) (e : Entry) : Entry :=
  if kp e.key then { e with history := [] } else e

/-- The version-selector mapping built by `Trash::restore`
(`src/trash.rs` lines 173-178): `"all"` drains, `"newest"` and an absent
selector pop the last-appended version, anything else is matched
textually.  (`src/trash.rs` writes the drain variant `All`; the enum in
`src/cache.rs` names it `Any`.) -/
def trashVersionPredicateOf : Option String → VersionPredicate
  | some "all" => .Any
  | some "newest" => .Newest
  | some t => .Specific t
  | none => .Newest

/-- The version-selector mapping built by `TMan::restore`
(`src/lib/mod.rs` lines 242-246): `"all"` drains, `"latest"` and an absent
selector pop the last-appended version. -/
def libVersionPredicateOf : Option String → LibVersionPredicate
  | some "all" => .All
  | some "latest" => .Latest
  | none => .Latest
  | some t => .Specific t

/-- The restoration-destination computation of `Trash::restore`
(`src/trash.rs` lines 184-188, identical in `src/lib/mod.rs` lines
255-259): for each version of the popped snapshot entry, the destination
is `format!("{}_{}", origin, version)` when the snapshot's history holds
more than one version, and the origin verbatim otherwise. -/
def restoreDestinations (e : Entry) : List (String × String) :=
  e.history.map (fun v =>
    (v, if e.history.length > 1 then e.key.origin ++ "_" ++ v else e.key.origin))

/-- `Error::print` from `src/error.rs`:
`format!("trash: error: {}!", ...)` around the per-variant description. -/
def Error.print (e : Error) : String :=
  "trash: error: " ++
    (match e with
     | .InvalidArguments => "invalid arguments"
     | .InvalidJSON line column =>
       "syntax error on line " ++ toString line ++ ", column " ++ toString column ++
         ", of settings.json or cache.json"
     | .InvalidRegex => "invalid regular expression"
     | .MissingTarget target => "could not locate '" ++ target ++ "'"
     | .MissingTargetPredicate => "could not locate any target satisfying given conditions"
     | .Unknown => "unknown") ++ "!"

/-- The possible outcomes of `serde_json::from_reader` on the backing
file, the external boundary of `Cache::new`: a well-formed entry list; a
failure at end of input (the missing or empty file); or a syntax/data
error at a line and column. -/
inductive ParseOutcome where
  | success (entries : List Entry)
  | eofError
  | syntaxError (line column : Nat)
deriving DecidableEq, Repr

/-- The entry-list initialisation of `Cache::new` (`src/cache.rs` line 41,
identical in `src/lib/cache.rs` line 117):
`from_reader(BufReader::new(&file)).unwrap_or(vec![])` — every parse
failure, EOF or not, falls back to the empty list, and the constructor
succeeds. -/
def Cache.newEntries : ParseOutcome → Except Error (List Entry)
  | .success es => .ok es
  | .eofError => .ok []
  | .syntaxError _ _ => .ok []

/-- JSON documents, the shape of the backing `cache.json` file.  Only the
constructors the entry list serialization uses are needed. -/
inductive Json where
  | str (s : String)
  | arr (elems : List Json)
  | obj (fields : List (String × Json))

/-- The derived `Serialize` for `Key`: an object with the two fields in
declaration order. -/
def Key.toJson (k : Key) : Json :=
  .obj [("name", .str k.name), ("origin", .str k.origin)]

/-- The derived `Serialize` for `Entry`: key object, uuid rendered as a
string, history as an array of strings. -/
def Entry.toJson (e : Entry) : Json :=
  .obj [("key", e.key.toJson), ("uuid", .str e.uuid),
        ("history", .arr (e.history.map Json.str))]

/-- `serde_json::to_writer(&self.entries)`: the entry list serializes as a
JSON array. -/
def entriesToJson (es : List Entry) : Json :=
  .arr (es.map Entry.toJson)

/-- Field lookup in a JSON object, as the derived `Deserialize` resolves
struct fields by name. -/
def Json.getField : Json → String → Option Json
  | .obj fields, n => (fields.find? (fun p => p.1 == n)).map (fun p => p.2)
  | _, _ => none

/-- Decode a JSON string. -/
def Json.asStr : Json → Option String
  | .str s => some s
  | _ => none

/-- Decode every element of a list, failing when any element fails — the
all-or-nothing semantics of deserializing a JSON sequence. -/
def mapMOption (f : α → Option β) : List α → Option (List β)
  | [] => some []
  | x :: xs =>
    match f x, mapMOption f xs with
    | some y, some ys => some (y :: ys)
    | _, _ => none

/-- Decode a JSON array of strings (the history field). -/
def decodeStringList : Json → Option (List String)
  | .arr xs => mapMOption Json.asStr xs
  | _ => none

/-- The derived `Deserialize` for `Key`. -/
def Key.fromJson (j : Json) : Option Key :=
  match (j.getField "name").bind Json.asStr, (j.getField "origin").bind Json.asStr with
  | some n, some o => some ⟨n, o⟩
  | _, _ => none

/-- The derived `Deserialize` for `Entry`. -/
def Entry.fromJson (j : Json) : Option Entry :=
  match (j.getField "key").bind Key.fromJson,
        (j.getField "uuid").bind Json.asStr,
        (j.getField "history").bind decodeStringList with
  | some k, some u, some h => some ⟨k, u, h⟩
  | _, _, _ => none

/-- `serde_json::from_reader` for `Vec<Entry>` at the document level. -/
def entriesFromJson : Json → Option (List Entry)
  | .arr xs => mapMOption Entry.fromJson xs
  | _ => none

/-- `Cache::end` from `src/cache.rs` lines 115-122 (named `commitEnd` here
because `end` is reserved): `set_len(0)` and a seek to the start make the
file hold exactly the full serialized snapshot written by `to_writer`, so
the resulting file content is the serialization of the entry list. -/
def Cache.commitEnd (entries : List Entry) : Json :=
  entriesToJson entries

/-- Loading a backing file whose content is the JSON document `j`
(`Cache::new`): parse the document and fall back to the empty list on any
failure, per `unwrap_or(vec![])`. -/
def Cache.load (j : Json) : List Entry :=
  (entriesFromJson j).getD []

/-- `Trash::empty` from `src/trash.rs` lines 250-261 (identical in
`src/lib/mod.rs` lines 340-351), restricted to its index interaction and
the storage directories it removes: pop every entry with an always-true
key predicate and the drain version predicate, then compute
`data_path/uuid` for each popped snapshot; the `?` operator propagates the
pop error. -/
def Trash.emptyOp (dataPath : String) (entries : List Entry) :
    Option (Except Error (List String) × List Entry) :=
  match Cache.pop (fun _ => true) .Any entries with
  | none => none
  | some (.error e, es') => some (.error e, es')
  | some (.ok popped, es') =>
    some (.ok (popped.map (fun pr => dataPath ++ "/" ++ pr.2.uuid)), es')

theorem removeAt_append (pre : List α) (x : α) (xs : List α) :
    removeAt (pre ++ x :: xs) pre.length = some (x, pre ++ xs) := by
  induction pre with
  | nil => simp [removeAt]
  | cons p ps ih => simp [removeAt, ih]

/-- The shift-factor removal loop, applied to the indices collected by an
`enumerate` scan for `q`, deletes exactly the elements satisfying `q` and
collects them in order.  `pre` is the already-scanned prefix (holding no
recorded index) and `j` the current shift factor. -/
theorem popAtIndices_idxWhereFrom (q : α → Bool) (rest : List α) :
    ∀ (pre : List α) (j : Nat),
      popAtIndices (pre ++ rest) (idxWhereFrom q rest (j + pre.length)) j
        = some (rest.filter q, pre ++ rest.filter (fun x => !q x)) := by
  induction rest with
  | nil => intro pre j; simp [idxWhereFrom, popAtIndices]
  | cons x xs ih =>
    intro pre j
    cases hq : q x with
    | true =>
      have hsub : j + pre.length - j = pre.length := by omega
      have hidx : j + pre.length + 1 = j + 1 + pre.length := by omega
      simp only [idxWhereFrom, hq, if_true, List.singleton_append, popAtIndices, hsub,
        removeAt_append, hidx, ih pre (j + 1)]
      simp [hq]
    | false =>
      have hidx : j + pre.length + 1 = j + (pre ++ [x]).length := by simp; omega
      have hre : pre ++ x :: xs = (pre ++ [x]) ++ xs := by simp
      simp only [idxWhereFrom, hq, Bool.false_eq_true, if_false, List.nil_append, hidx, hre,
        ih (pre ++ [x]) j]
      simp [hq]

/-- Top-level form of the previous lemma: removal at the collected indices
is filtering. -/
theorem popAtIndices_idxWhere (q : α → Bool) (l : List α) :
    popAtIndices l (idxWhereFrom q l 0) 0 = some (l.filter q, l.filter (fun x => !q x)) := by
  simpa using popAtIndices_idxWhereFrom q l [] 0

/-- `Entry::pop` with a `Specific` predicate removes every textually equal
version and returns all of them, in order. -/
theorem entryPop_specific (t : String) (h : List String) :
    Entry.pop (.Specific t) h
      = some (h.filter (fun v => v == t), h.filter (fun v => !(v == t))) := by
  simpa [Entry.pop] using popAtIndices_idxWhere (fun v => v == t) h

/-- When no key matches, the scan records nothing and leaves the entries
untouched. -/
theorem popScan_nomatch (kp : Key → Bool) (vp : VersionPredicate) :
    ∀ (entries : List Entry) (idx : Nat), (∀ e ∈ entries, kp e.key = false) →
      popScan kp vp entries idx = some ([], [], false, entries) := by
  intro entries
  induction entries with
  | nil => intro idx _; rfl
  | cons e es ih =>
    intro idx hn
    simp [popScan, hn e (by simp), ih (idx + 1) (fun x hx => hn x (by simp [hx]))]

/-- Structure of a successful scan, for an arbitrary version predicate: the
recorded indices are exactly the `enumerate` positions of the now-empty
matched entries in the mutated list, and every unmatched entry of the
mutated list is an untouched entry of the input. -/
theorem popScan_spec (kp : Key → Bool) (vp : VersionPredicate) :
    ∀ (entries : List Entry) (idx : Nat) (p : List (Bool × Entry)) (f : List Nat) (o : Bool)
      (es' : List Entry),
      popScan kp vp entries idx = some (p, f, o, es') →
      f = idxWhereFrom (fun e => kp e.key && (e.history.length == 0)) es' idx
        ∧ ∀ e' ∈ es', kp e'.key = false → e' ∈ entries := by
  intro entries
  induction entries with
  | nil =>
    intro idx p f o es' hpop
    simp [popScan] at hpop
    obtain ⟨-, hf, -, hes⟩ := hpop
    subst hf; subst hes
    simp [idxWhereFrom]
  | cons e es ih =>
    intro idx p f o es' hpop
    cases hk : kp e.key with
    | false =>
      simp only [popScan, hk, Bool.false_eq_true, if_false] at hpop
      cases hs : popScan kp vp es (idx + 1) with
      | none => rw [hs] at hpop; exact absurd hpop (by simp)
      | some r =>
        obtain ⟨p₂, f₂, o₂, es₂⟩ := r
        rw [hs] at hpop
        simp only [Option.some.injEq, Prod.mk.injEq] at hpop
        obtain ⟨hp, hf, ho, hes⟩ := hpop
        subst hp; subst hf; subst ho; subst hes
        obtain ⟨ihf, ihm⟩ := ih (idx + 1) p₂ f₂ o₂ es₂ hs
        refine ⟨by simp [idxWhereFrom, hk, ihf], ?_⟩
        intro e' he' hke'
        rcases List.mem_cons.mp he' with rfl | hmem
        · exact List.mem_cons_self _ _
        · exact List.mem_cons_of_mem _ (ihm e' hmem hke')
    | true =>
      simp only [popScan, hk, if_true] at hpop
      cases hep : Entry.pop vp e.history with
      | none => rw [hep] at hpop; exact absurd hpop (by simp)
      | some pr =>
        obtain ⟨pv, rem⟩ := pr
        rw [hep] at hpop
        cases hs : popScan kp vp es (idx + 1) with
        | none => rw [hs] at hpop; exact absurd hpop (by simp)
        | some r =>
          obtain ⟨p₂, f₂, o₂, es₂⟩ := r
          rw [hs] at hpop
          simp only [Option.some.injEq, Prod.mk.injEq] at hpop
          obtain ⟨hp, hf, ho, hes⟩ := hpop
          subst hp; subst hf; subst ho; subst hes
          obtain ⟨ihf, ihm⟩ := ih (idx + 1) p₂ f₂ o₂ es₂ hs
          constructor
          · simp [idxWhereFrom, hk, ihf]
          · intro e' he' hke'
            rcases List.mem_cons.mp he' with rfl | hmem
            · simp at hke'; rw [hke'] at hk; exact absurd hk (by simp)
            · exact List.mem_cons_of_mem _ (ihm e' hmem hke')

/-- A scan with the match-all version predicate: every matched entry is
snapshotted whole and flagged emptied, the mutated list drains matched
histories, and the occurred flag is the existence of a match. -/
theorem popScan_any (kp : Key → Bool) :
    ∀ (entries : List Entry) (idx : Nat),
      popScan kp .Any entries idx
        = some ((entries.filter (fun e => kp e.key)).map (fun e => (true, e)),
                idxWhereFrom (fun e => kp e.key && (e.history.length == 0))
                  (entries.map (drainMatched kp)) idx,
                entries.any (fun e => kp e.key),
                entries.map (drainMatched kp)) := by
  intro entries
  induction entries with
  | nil => intro idx; simp [popScan, idxWhereFrom]
  | cons e es ih =>
    intro idx
    cases hk : kp e.key with
    | true => simp [popScan, Entry.pop, hk, ih (idx + 1), drainMatched, idxWhereFrom]
    | false => simp [popScan, Entry.pop, hk, ih (idx + 1), drainMatched, idxWhereFrom]

/-- Keeping the undrained entries of the drained list is keeping the
unmatched entries of the original list. -/
theorem filter_drainMatched (kp : Key → Bool) :
    ∀ entries : List Entry,
      (entries.map (drainMatched kp)).filter
          (fun e => !(kp e.key && (e.history.length == 0)))
        = entries.filter (fun e => !(kp e.key)) := by
  intro entries
  induction entries with
  | nil => rfl
  | cons e es ih =>
    cases hk : kp e.key with
    | true => simp [drainMatched, hk]; simpa using ih
    | false => simp [drainMatched, hk]; simpa using ih

/-- C3: for every index state and every key predicate satisfied by no
entry's key, `pop` returns the `MissingTargetPredicate` error and leaves
the index completely unchanged — same entries, same order, same
histories. -/
theorem pop_no_match_error_and_unchanged (kp : Key → Bool) (vp : VersionPredicate)
    (entries : List Entry) (hn : ∀ e ∈ entries, kp e.key = false) :
    Cache.pop kp vp entries = some (.error .MissingTargetPredicate, entries) := by
  unfold Cache.pop
  rw [popScan_nomatch kp vp entries 0 hn]
  simp [popAtIndices]

/-- C3 witness. -/
theorem pop_no_match_error_and_unchanged_witness :
    (∀ e ∈ [(⟨⟨"a", "/a"⟩, "u1", ["x"]⟩ : Entry)],
        (fun k => k.name == "zz") e.key = false)
    ∧ Cache.pop (fun k => k.name == "zz") .Any [⟨⟨"a", "/a"⟩, "u1", ["x"]⟩]
      = some (.error .MissingTargetPredicate, [⟨⟨"a", "/a"⟩, "u1", ["x"]⟩]) :=
  ⟨by decide,
   pop_no_match_error_and_unchanged (fun k => k.name == "zz") .Any
     [⟨⟨"a", "/a"⟩, "u1", ["x"]⟩] (by decide)⟩

/-- C5: when at least one entry's key satisfies the predicate, `pop` with
the match-all version predicate succeeds, drains and removes exactly the
matched entries (each flagged emptied), and the remaining entries are the
unmatched ones in their original order — so no remaining entry's key
satisfies the predicate. -/
theorem pop_match_all_drains (kp : Key → Bool) (entries : List Entry)
    (hx : ∃ e ∈ entries, kp e.key = true) :
    Cache.pop kp .Any entries
      = some (.ok ((entries.filter (fun e => kp e.key)).map (fun e => (true, e))),
              entries.filter (fun e => !(kp e.key)))
    ∧ ∀ e ∈ entries.filter (fun e => !(kp e.key)), kp e.key = false := by
  have hany : entries.any (fun e => kp e.key) = true := by
    rcases hx with ⟨e, he, hk⟩
    exact List.any_eq_true.mpr ⟨e, he, hk⟩
  constructor
  · unfold Cache.pop
    rw [popScan_any kp entries 0]
    simp only [popAtIndices_idxWhere, filter_drainMatched, hany, if_true]
  · intro e he
    simpa using (List.mem_filter.mp he).2

/-- C5 witness. -/
theorem pop_match_all_drains_witness :
    (∃ e ∈ [(⟨⟨"a", "/a"⟩, "u1", ["x", "y"]⟩ : Entry), ⟨⟨"b", "/b"⟩, "u2", ["z"]⟩],
        (fun k => k.name == "a") e.key = true)
    ∧ Cache.pop (fun k => k.name == "a") .Any
        [⟨⟨"a", "/a"⟩, "u1", ["x", "y"]⟩, ⟨⟨"b", "/b"⟩, "u2", ["z"]⟩]
      = some (.ok [(true, ⟨⟨"a", "/a"⟩, "u1", ["x", "y"]⟩)], [⟨⟨"b", "/b"⟩, "u2", ["z"]⟩])
    ∧ ∀ e ∈ [(⟨⟨"b", "/b"⟩, "u2", ["z"]⟩ : Entry)], (fun k => k.name == "a") e.key = false := by
  have h := pop_match_all_drains (fun k => k.name == "a")
    [⟨⟨"a", "/a"⟩, "u1", ["x", "y"]⟩, ⟨⟨"b", "/b"⟩, "u2", ["z"]⟩] (by decide)
  exact ⟨by decide, h.1, h.2⟩

/-- The lookup-and-append loop of `push` keeps every history non-empty. -/
theorem pushLoop_inv (key : Key) (v : String) :
    ∀ (es es' : List Entry) (u : String), CacheInv es → pushLoop key v es = some (es', u) →
      CacheInv es' := by
  intro es
  induction es with
  | nil => intro es' u _ h; exact absurd h (by simp [pushLoop])
  | cons e es ih =>
    intro es' u hinv h
    cases hk : e.key == key with
    | true =>
      simp only [pushLoop, hk, if_true, Option.some.injEq, Prod.mk.injEq] at h
      obtain ⟨h1, -⟩ := h
      subst h1
      intro e' he'
      rcases List.mem_cons.mp he' with rfl | hmem
      · simp
      · exact hinv e' (List.mem_cons_of_mem _ hmem)
    | false =>
      simp only [pushLoop, hk, Bool.false_eq_true, if_false, Option.map_eq_some'] at h
      obtain ⟨⟨es₂, u₂⟩, hrec, h2⟩ := h
      simp only [Prod.mk.injEq] at h2
      obtain ⟨h3, -⟩ := h2
      subst h3
      intro e' he'
      rcases List.mem_cons.mp he' with rfl | hmem
      · exact hinv e' (List.mem_cons_self _ _)
      · exact ih es₂ u₂ (fun x hx => hinv x (List.mem_cons_of_mem _ hx)) hrec e' hmem

/-- C2: the non-empty-history property is an invariant of the index
operations: `push` preserves it (append to an existing history, or a new
entry with a one-element history), and any state produced by a completed
`pop` satisfies it (an entry whose history became empty is removed). -/
theorem nonempty_history_invariant :
    (∀ (name origin freshUuid version : String) (entries : List Entry),
        CacheInv entries → CacheInv (Cache.push name origin freshUuid version entries).1)
    ∧ ∀ (kp : Key → Bool) (vp : VersionPredicate) (entries : List Entry)
        (r : Except Error (List (Bool × Entry))) (es' : List Entry),
        CacheInv entries → Cache.pop kp vp entries = some (r, es') → CacheInv es' := by
  constructor
  · intro name origin fu v entries hinv
    cases hp : pushLoop ⟨name, origin⟩ v entries with
    | some p =>
      obtain ⟨es', u⟩ := p
      simp only [Cache.push, hp]
      exact pushLoop_inv ⟨name, origin⟩ v entries es' u hinv hp
    | none =>
      simp only [Cache.push, hp]
      intro e he
      rcases List.mem_append.mp he with h1 | h2
      · exact hinv e h1
      · simp only [List.mem_singleton] at h2
        subst h2
        simp
  · intro kp vp entries r es' hinv hpop
    unfold Cache.pop at hpop
    cases hs : popScan kp vp entries 0 with
    | none => rw [hs] at hpop; exact absurd hpop (by simp)
    | some q =>
      obtain ⟨p, f, o, es₁⟩ := q
      rw [hs] at hpop
      obtain ⟨hf, hmem⟩ := popScan_spec kp vp entries 0 p f o es₁ hs
      simp only [hf, popAtIndices_idxWhere] at hpop
      cases o with
      | true =>
        simp at hpop
        obtain ⟨-, hes⟩ := hpop
        subst hes
        intro e' he'
        have hm := List.mem_filter.mp he'
        rcases Bool.or_eq_true_iff.mp hm.2 with hkf | hlen
        · exact hinv e' (hmem e' hm.1 (by simpa using hkf))
        · intro hnil
          rw [hnil] at hlen
          simp at hlen
      | false =>
        simp at hpop
        obtain ⟨-, hes⟩ := hpop
        subst hes
        intro e' he'
        have hm := List.mem_filter.mp he'
        rcases Bool.or_eq_true_iff.mp hm.2 with hkf | hlen
        · exact hinv e' (hmem e' hm.1 (by simpa using hkf))
        · intro hnil
          rw [hnil] at hlen
          simp at hlen

/-- C2 witness. -/
theorem nonempty_history_invariant_witness :
    CacheInv (Cache.push "a" "/a" "u1" "v1" [(⟨⟨"a", "/a"⟩, "u0", ["w"]⟩ : Entry)]).1
    ∧ CacheInv ([] : List Entry) :=
  ⟨nonempty_history_invariant.1 "a" "/a" "u1" "v1" [⟨⟨"a", "/a"⟩, "u0", ["w"]⟩]
     (by simp [CacheInv]),
   nonempty_history_invariant.2 (fun _ => true) .Any [⟨⟨"a", "/a"⟩, "u0", ["w"]⟩]
     (.ok [(true, ⟨⟨"a", "/a"⟩, "u0", ["w"]⟩)]) [] (by simp [CacheInv]) rfl⟩

/-- When no entry carries the key, the lookup loop of `push` fails. -/
theorem pushLoop_not_found (key : Key) (v : String) :
    ∀ es : List Entry, (∀ e ∈ es, (e.key == key) = false) → pushLoop key v es = none := by
  intro es
  induction es with
  | nil => intro _; rfl
  | cons e es ih =>
    intro hn
    simp [pushLoop, hn e (List.mem_cons_self _ _),
      ih (fun x hx => hn x (List.mem_cons_of_mem _ hx))]

/-- The lookup loop of `push` finds the first entry with the key and
appends the version to its history. -/
theorem pushLoop_found (key : Key) (v u : String) (h : List String) :
    ∀ (pre post : List Entry), (∀ e ∈ pre, (e.key == key) = false) →
      pushLoop key v (pre ++ (⟨key, u, h⟩ : Entry) :: post)
        = some (pre ++ (⟨key, u, h ++ [v]⟩ : Entry) :: post, u) := by
  intro pre
  induction pre with
  | nil => intro post _; simp [pushLoop]
  | cons p ps ih =>
    intro post hn
    simp [pushLoop, hn p (List.mem_cons_self _ _),
      ih post (fun x hx => hn x (List.mem_cons_of_mem _ hx))]

/-- Every further push with the same key appends its version to the one
trailing entry created by the first push. -/
theorem pushMany_aux (name origin : String) (entries0 : List Entry)
    (hn : ∀ e ∈ entries0, (e.key == (⟨name, origin⟩ : Key)) = false) :
    ∀ (cs : List (String × String)) (u : String) (vs : List String),
      pushMany name origin cs (entries0 ++ [⟨⟨name, origin⟩, u, vs⟩])
        = entries0 ++ [⟨⟨name, origin⟩, u, vs ++ cs.map (fun c => c.2)⟩] := by
  intro cs
  induction cs with
  | nil => intro u vs; simp [pushMany]
  | cons c cs ih =>
    intro u vs
    have hstep : (Cache.push name origin c.1 c.2 (entries0 ++ [⟨⟨name, origin⟩, u, vs⟩])).1
        = entries0 ++ [⟨⟨name, origin⟩, u, vs ++ [c.2]⟩] := by
      simp only [Cache.push, pushLoop_found (⟨name, origin⟩ : Key) c.2 u vs entries0 [] hn]
    calc pushMany name origin (c :: cs) (entries0 ++ [⟨⟨name, origin⟩, u, vs⟩])
        = pushMany name origin cs (entries0 ++ [⟨⟨name, origin⟩, u, vs ++ [c.2]⟩]) := by
          simp only [pushMany, List.foldl_cons, hstep]
      _ = entries0 ++ [⟨⟨name, origin⟩, u, (vs ++ [c.2]) ++ cs.map (fun c => c.2)⟩] :=
          ih u (vs ++ [c.2])
      _ = entries0 ++ [⟨⟨name, origin⟩, u, vs ++ (c :: cs).map (fun c => c.2)⟩] := by simp

/-- C1: a non-empty sequence of pushes with one fixed `(name, origin)`
pair, starting from an index that holds no entry for that key, produces
exactly one entry for that key — appended at the end, with the uuid
generated by the first push and the generated versions as its history, in
call order. -/
theorem push_same_key_single_entry (name origin : String) (entries0 : List Entry)
    (c : String × String) (cs : List (String × String))
    (hn : ∀ e ∈ entries0, (e.key == (⟨name, origin⟩ : Key)) = false) :
    pushMany name origin (c :: cs) entries0
      = entries0 ++ [⟨⟨name, origin⟩, c.1, (c :: cs).map (fun p => p.2)⟩]
    ∧ (pushMany name origin (c :: cs) entries0).filter
        (fun e => e.key == (⟨name, origin⟩ : Key))
      = [⟨⟨name, origin⟩, c.1, (c :: cs).map (fun p => p.2)⟩] := by
  have hfirst : (Cache.push name origin c.1 c.2 entries0).1
      = entries0 ++ [⟨⟨name, origin⟩, c.1, [c.2]⟩] := by
    simp only [Cache.push, pushLoop_not_found (⟨name, origin⟩ : Key) c.2 entries0 hn]
  have hmain : pushMany name origin (c :: cs) entries0
      = entries0 ++ [⟨⟨name, origin⟩, c.1, (c :: cs).map (fun p => p.2)⟩] := by
    calc pushMany name origin (c :: cs) entries0
        = pushMany name origin cs (entries0 ++ [⟨⟨name, origin⟩, c.1, [c.2]⟩]) := by
          simp only [pushMany, List.foldl_cons, hfirst]
      _ = entries0 ++ [⟨⟨name, origin⟩, c.1, [c.2] ++ cs.map (fun p => p.2)⟩] :=
          pushMany_aux name origin entries0 hn cs c.1 [c.2]
      _ = entries0 ++ [⟨⟨name, origin⟩, c.1, (c :: cs).map (fun p => p.2)⟩] := by simp
  refine ⟨hmain, ?_⟩
  rw [hmain, List.filter_append]
  have h0 : entries0.filter (fun e => e.key == (⟨name, origin⟩ : Key)) = [] :=
    List.filter_eq_nil_iff.mpr (fun e he => by simp [hn e he])
  simp [h0]

/-- C1 witness. -/
theorem push_same_key_single_entry_witness :
    (∀ e ∈ [(⟨⟨"b", "/b"⟩, "u0", ["w"]⟩ : Entry)],
        (Entry.key e == (⟨"a", "/a"⟩ : Key)) = false)
    ∧ pushMany "a" "/a" [("u1", "t1"), ("u2", "t2")] [⟨⟨"b", "/b"⟩, "u0", ["w"]⟩]
      = [⟨⟨"b", "/b"⟩, "u0", ["w"]⟩] ++ [⟨⟨"a", "/a"⟩, "u1", ["t1", "t2"]⟩]
    ∧ (pushMany "a" "/a" [("u1", "t1"), ("u2", "t2")] [⟨⟨"b", "/b"⟩, "u0", ["w"]⟩]).filter
        (fun e => e.key == (⟨"a", "/a"⟩ : Key))
      = [⟨⟨"a", "/a"⟩, "u1", ["t1", "t2"]⟩] := by
  have h := push_same_key_single_entry "a" "/a" [⟨⟨"b", "/b"⟩, "u0", ["w"]⟩]
    ("u1", "t1") [("u2", "t2")] (by decide)
  exact ⟨by decide, h.1, h.2⟩

/-- Decoding an encoded string list gives it back. -/
theorem mapM_asStr_map_str (h : List String) :
    mapMOption Json.asStr (h.map Json.str) = some h := by
  induction h with
  | nil => rfl
  | cons v vs ih => simp [mapMOption, Json.asStr, ih]

/-- Key serialization round-trips. -/
theorem keyFromJson_toJson (k : Key) : Key.fromJson (Key.toJson k) = some k := rfl

/-- Entry serialization round-trips. -/
theorem entryFromJson_toJson (e : Entry) : Entry.fromJson (Entry.toJson e) = some e := by
  have h1 : (Entry.toJson e).getField "key" = some (Key.toJson e.key) := rfl
  have h2 : (Entry.toJson e).getField "uuid" = some (.str e.uuid) := rfl
  have h3 : (Entry.toJson e).getField "history" = some (.arr (e.history.map Json.str)) := rfl
  simp [Entry.fromJson, h1, h2, h3, keyFromJson_toJson, Json.asStr, decodeStringList,
    mapM_asStr_map_str]

/-- C6: committing the index and loading the committed document reproduces
the identical entry list — same keys, same container ids, same history
order. -/
theorem commit_then_load_roundtrip (es : List Entry) :
    entriesFromJson (Cache.commitEnd es) = some es
    ∧ Cache.load (Cache.commitEnd es) = es := by
  have h : entriesFromJson (Cache.commitEnd es) = some es := by
    simp only [Cache.commitEnd, entriesToJson, entriesFromJson]
    induction es with
    | nil => rfl
    | cons e es ih => simp [mapMOption, entryFromJson_toJson, ih]
  exact ⟨h, by simp [Cache.load, h]⟩

/-- C7: the `Newest`/`Latest` version predicate — which the restore
operation builds for the `"newest"`/`"latest"` selector and for an absent
selector — removes and returns exactly the positionally last element of
the history, not a lexicographically greatest one: on appended order
`["t1", "t10", "t2"]` it yields `"t2"`. -/
theorem newest_pops_last_appended :
    (∀ (h : List String) (v : String), h.getLast? = some v →
        Entry.pop .Newest h = some ([v], h.dropLast))
    ∧ Entry.pop .Newest ["t1", "t10", "t2"] = some (["t2"], ["t1", "t10"])
    ∧ trashVersionPredicateOf (some "newest") = .Newest
    ∧ trashVersionPredicateOf none = .Newest
    ∧ libVersionPredicateOf (some "latest") = .Latest
    ∧ libVersionPredicateOf none = .Latest
    ∧ ∀ (h : List String) (v : String), h.getLast? = some v →
        libEntryPop .Latest h = some ([v], h.dropLast) := by
  refine ⟨?_, rfl, rfl, rfl, rfl, rfl, ?_⟩
  · intro h v hl
    simp [Entry.pop, hl]
  · intro h v hl
    simp [libEntryPop, hl]

/-- C7 witness. -/
theorem newest_pops_last_appended_witness :
    (["a", "b"].getLast? = some "b")
    ∧ Entry.pop .Newest ["a", "b"] = some (["b"], ["a"])
    ∧ libEntryPop .Latest ["a", "b"] = some (["b"], ["a"]) :=
  ⟨rfl, newest_pops_last_appended.1 ["a", "b"] "b" rfl,
   newest_pops_last_appended.2.2.2.2.2.2 ["a", "b"] "b" rfl⟩

/-- C8: `Entry::pop` of `src/cache.rs` with a `Specific` predicate removes
every occurrence of the target version, duplicates included; the library
rewrite in `src/lib/cache.rs` removes only the first occurrence — on
history `["v", "v"]` with target `"v"` it returns `["v"]` and leaves
`["v"]` behind, contradicting its own doc comment. -/
theorem specific_removes_all_duplicates_bug :
    libEntryPop (.Specific "v") ["v", "v"] = some (["v"], ["v"])
    ∧ Entry.pop (.Specific "v") ["v", "v"] = some (["v", "v"], [])
    ∧ ∀ (t : String) (h : List String),
        Entry.pop (.Specific t) h
          = some (h.filter (fun v => v == t), h.filter (fun v => !(v == t))) :=
  ⟨rfl, by decide, entryPop_specific⟩

/-- C9: the restore destination of each version of a popped snapshot is
the origin path verbatim when the snapshot's history holds exactly one
version, and the origin suffixed with an underscore and the version
identifier when it holds more than one. -/
theorem restore_destination_rule (e : Entry) :
    restoreDestinations e
      = e.history.map (fun v =>
          (v, if e.history.length = 1 then e.key.origin else e.key.origin ++ "_" ++ v)) := by
  obtain ⟨k, u, h⟩ := e
  cases h with
  | nil => simp [restoreDestinations]
  | cons x t =>
    cases t with
    | nil => simp [restoreDestinations]
    | cons y ys =>
      have h1 : 1 < (x :: y :: ys).length := by simp only [List.length_cons]; omega
      have h2 : ¬((x :: y :: ys).length = 1) := by simp only [List.length_cons]; omega
      simp [restoreDestinations, h1, h2]

/-- C10: emptying an already-empty index does not succeed as a no-op:
`empty` delegates to `pop` with an always-true key predicate, which
errors with `MissingTargetPredicate` when the index holds no entry, and
the reported line is the corresponding error message. -/
theorem empty_on_empty_index_errors (dataPath : String) :
    Trash.emptyOp dataPath [] = some (.error .MissingTargetPredicate, [])
    ∧ Error.print .MissingTargetPredicate
      = "trash: error: could not locate any target satisfying given conditions!" := by
  exact ⟨rfl, by decide⟩

/-- C4: `Cache::new` treats a missing/empty backing file as an empty index
(as the claim states), but it also silently turns malformed content into
an empty index instead of failing with the line/column diagnostic: on a
syntax error at line 1, column 2, it succeeds with an empty entry list and
does not return `InvalidJSON 1 2`. -/
theorem load_swallows_malformed_content :
    Cache.newEntries ParseOutcome.eofError = .ok []
    ∧ Cache.newEntries (ParseOutcome.syntaxError 1 2) = .ok []
    ∧ Cache.newEntries (ParseOutcome.syntaxError 1 2) ≠ .error (Error.InvalidJSON 1 2) := by
  refine ⟨rfl, rfl, ?_⟩
  intro h
  exact Except.noConfusion h
